import Mathlib

/-!
Verification of the line-oriented Markdown post-processing pipeline in
`src/convert_manuals.py`.  Lines are modelled as `List Char` (no trailing
line terminators), documents as `List (List Char)`.  Each definition below
is a direct shallow embedding of the corresponding Python function; the
index-driven scanning loops of the source are rendered as structurally
recursive scans carrying the loop state (current accumulated block,
previous-line flag) as explicit arguments.
-/

set_option maxRecDepth 4096

namespace ConvertManuals

/-- Lines and cells are lists of characters. -/
abbrev Line := List Char

/-- Coerce a Lean string literal to the character-list model. -/
def str (s : String) : Line := s.data

/-- Python whitespace test used by `str.strip`, `str.rstrip` and the regex
class `\s` (ASCII whitespace together with the Unicode space characters). -/
def isSpace (c : Char) : Bool :=
  c == ' ' || c == '\t' || c == '\n' || c == '\x0b' || c == '\x0c' || c == '\r' ||
  c == '\x1c' || c == '\x1d' || c == '\x1e' || c == '\x1f' || c == '\x85' || c == '\u00A0' ||
  c == '\u1680' || c == '\u2000' || c == '\u2001' || c == '\u2002' || c == '\u2003' ||
  c == '\u2004' || c == '\u2005' || c == '\u2006' || c == '\u2007' || c == '\u2008' ||
  c == '\u2009' || c == '\u200A' || c == '\u2028' || c == '\u2029' || c == '\u202F' ||
  c == '\u205F' || c == '\u3000'

/-- Python `s.lstrip()`. -/
def lstrip (s : Line) : Line := s.dropWhile isSpace

/-- Python `s.rstrip()`. -/
def rstrip (s : Line) : Line := (s.reverse.dropWhile isSpace).reverse

/-- Python `s.strip()`. -/
def trim (s : Line) : Line := rstrip (lstrip s)

/-- Python `line.rstrip(chr(10))`: remove trailing newline characters. -/
def rstripNewlines (s : Line) : Line := (s.reverse.dropWhile (fun c => c == '\n')).reverse

/-- Main loop of `split_table_row` after the leading marker was consumed:
the remaining characters, the current cell buffer and the escape flag.
A `|` outside an escape closes the current cell (trimmed); a backslash
outside an escape is kept literally and sets the escape flag; an escaped
character of any kind is appended and clears the flag.  At the end a
non-empty buffer is closed as the final cell. -/
def splitCells : List Char → List Char → Bool → List Line
  | [], buf, _ => if buf.isEmpty then [] else [trim buf]
  | c :: rest, buf, true => splitCells rest (buf ++ [c]) false
  | c :: rest, buf, false =>
    if c == '|' then trim buf :: splitCells rest [] false
    else if c == '\\' then splitCells rest (buf ++ [c]) true
    else splitCells rest (buf ++ [c]) false

/-- `split_table_row` from `convert_manuals.py`: strip trailing newlines,
skip every character up to and including the first `|`, then split the rest
into cells with `splitCells`.  If the line has no `|` at all, no cell is
ever opened and the result is empty. -/
def split_table_row (line : Line) : List Line :=
  match (rstripNewlines line).dropWhile (fun c => c != '|') with
  | [] => []
  | _ :: rest => splitCells rest [] false

/-- Python test `Chr(42)Chr(42) in line`: the line contains two adjacent
asterisks. -/
def containsBold : Line → Bool
  | [] => false
  | [_] => false
  | a :: b :: rest => (a == '*' && b == '*') || containsBold (b :: rest)

/-- Locate the first occurrence of the three-character sequence `:` `*` `*`
in a list, returning the characters before it and the characters after it. -/
def findColonBold : List Char → Option (List Char × List Char)
  | ':' :: '*' :: '*' :: rest => some ([], rest)
  | c :: rest =>
    match findColonBold rest with
    | some (p, r) => some (c :: p, r)
    | none => none
  | [] => none

/-- Semantics of `SUMMARY_ROW_RE.match` for the anchored pattern
`** (.+?) : ** \s* (.*)` on newline-free cell text: the string must start
with two asterisks followed by at least one character and then the earliest
occurrence of `:**`; group 1 is the (non-empty) text between, group 2 is
the remainder with its maximal run of leading whitespace removed. -/
def summaryRowMatch (s : Line) : Option (Line × Line) :=
  match s with
  | '*' :: '*' :: c :: rest =>
    match findColonBold rest with
    | some (p, r) => some (c :: p, r.dropWhile isSpace)
    | none => none
  | _ => none

/-- `is_summary_table`: some line is non-blank, contains a bold marker, has
a first cell, and that first cell matches the summary-row pattern. -/
def is_summary_table (table_lines : List Line) : Bool :=
  table_lines.any (fun line =>
    !(trim line).isEmpty && containsBold line &&
      (match split_table_row line with
       | [] => false
       | c0 :: _ => (summaryRowMatch c0).isSome))

/-- Body of the `for` loop of `format_summary_table`: the data row emitted
for one input line, or `none` when the line is skipped (blank line, pure
separator line, no cells, empty first cell, or first cell failing the
summary-row pattern). -/
def formatRow (line : Line) : Option Line :=
  let stripped := trim line
  if stripped.isEmpty then none
  else if (stripped.filter (fun c => c != '-')).all (fun c => c == '|') then none
  else
    match split_table_row line with
    | [] => none
    | first :: extras =>
      if first.isEmpty then none
      else
        match summaryRowMatch first with
        | none => none
        | some (g1, g2) =>
          let label := trim g1
          let details := extras.foldl
            (fun d e => if e.isEmpty then d else if d.isEmpty then trim e else d ++ ' ' :: trim e)
            (trim g2)
          some ( str "| " ++ label ++ str " | " ++ details ++ str " |")

/-- `format_summary_table`: the fixed header and separator rows followed by
one data row per qualifying input line. -/
def format_summary_table (table_lines : List Line) : List Line :=
  str "| Field | Details |" :: str "| --- | --- |" :: table_lines.filterMap formatRow

/-- A line whose first character is the table marker `|`. -/
def startsWithBar : Line → Bool
  | '|' :: _ => true
  | _ => false

/-- Dispatch of `rewrite_summary_tables` on one complete table block. -/
def flushTable (block : List Line) : List Line :=
  if is_summary_table block then format_summary_table block else block

/-- Scan loop of `rewrite_summary_tables`: `acc` is the run of consecutive
marker-prefixed lines collected so far.  A marker line extends the run; any
other line flushes the run through the classifier/reformatter and passes
itself through; the end of input flushes the pending run. -/
def rewriteRun : List Line → List Line → List Line
  | acc, [] => flushTable acc
  | acc, l :: ls =>
    if startsWithBar l then rewriteRun (acc ++ [l]) ls
    else flushTable acc ++ l :: rewriteRun [] ls

/-- `rewrite_summary_tables` from `convert_manuals.py`. -/
def rewrite_summary_tables (lines : List Line) : List Line := rewriteRun [] lines

/-- Loop of `collapse_blank_lines` with the current `blank_streak` counter:
non-blank lines are emitted right-stripped and reset the counter, blank
lines are emitted as empty lines only while the streak is at most two. -/
def collapseGo : List Line → Nat → List Line
  | [], _ => []
  | l :: ls, streak =>
    if (trim l).isEmpty then
      (if streak + 1 ≤ 2 then [([] : Line)] else []) ++ collapseGo ls (streak + 1)
    else rstrip l :: collapseGo ls 0

/-- `collapse_blank_lines` from `convert_manuals.py`. -/
def collapse_blank_lines (lines : List Line) : List Line := collapseGo lines 0

/-- A line beginning with four space characters. -/
def startsWith4 : Line → Bool
  | ' ' :: ' ' :: ' ' :: ' ' :: _ => true
  | _ => false

/-- Lines collected into an indented block: four-space-indented or empty. -/
def indentedOrBlank (l : Line) : Bool := startsWith4 l || l.isEmpty

/-- Python `line.strip() != ...` emptiness test on the previous line. -/
def notBlank (l : Line) : Bool := !(trim l).isEmpty

/-- Block contents collected from the consumed lines: four-space lines are
stripped of the four-space indent, blank lines are kept as empty entries. -/
def blockOf (consumed : List Line) : List Line :=
  consumed.map (fun c => if startsWith4 c then c.drop 4 else [])

/-- Whether the collected region contained an (exactly empty) blank line. -/
def sawBlankOf (consumed : List Line) : Bool := consumed.any (fun c => c.isEmpty)

/-- Pop blank entries from the tail of a collected block. -/
def dropTrailingBlanks (b : List Line) : List Line :=
  (b.reverse.dropWhile (fun part => part.isEmpty)).reverse

/-- Pop blank entries from the head of a collected block. -/
def dropLeadingBlanks (b : List Line) : List Line :=
  b.dropWhile (fun part => part.isEmpty)

/-- The trailing-then-leading blank trimming applied before fencing. -/
def trimBlanks (b : List Line) : List Line := dropLeadingBlanks (dropTrailingBlanks b)

/-- Verbatim re-emission of a collected block: non-blank entries regain the
four-space indent, blank entries become empty lines. -/
def reemitBlock (b : List Line) : List Line :=
  b.map (fun part => if part.isEmpty then ([] : Line) else str "    " ++ part)

/-- Lines emitted for one collected indented region, mirroring the control
flow of the source: when the block is non-empty and saw an internal blank
line it is trimmed of boundary blanks and fenced if anything remains
(otherwise the emptied block falls through to re-emission, producing
nothing); without an internal blank line the block is re-emitted. -/
def emitBlock (consumed : List Line) : List Line :=
  let block := blockOf consumed
  if block.isEmpty = false ∧ sawBlankOf consumed = true then
    if (trimBlanks block).isEmpty = false then
      str "```" :: (trimBlanks block ++ [ str "```"])
    else reemitBlock (trimBlanks block)
  else reemitBlock block

/-- Scan of `convert_indented_code_blocks`.  State `Sum.inl prevNB` is the
plain scan (`prevNB`: the previous line exists and is non-blank); state
`Sum.inr consumed` is the collection of an indented region.  A four-space
line after a non-blank line is passed through as a continuation line;
otherwise it opens a region, which extends over four-space and empty lines
and is emitted by `emitBlock` at its end. -/
def convRun : Sum Bool (List Line) → List Line → List Line
  | Sum.inl _, [] => []
  | Sum.inr consumed, [] => emitBlock consumed
  | Sum.inl prevNB, l :: ls =>
    if startsWith4 l then
      if prevNB then l :: convRun (Sum.inl (notBlank l)) ls
      else convRun (Sum.inr [l]) ls
    else l :: convRun (Sum.inl (notBlank l)) ls
  | Sum.inr consumed, l :: ls =>
    if indentedOrBlank l then convRun (Sum.inr (consumed ++ [l])) ls
    else emitBlock consumed ++ l :: convRun (Sum.inl (notBlank l)) ls

/-- `convert_indented_code_blocks` from `convert_manuals.py`. -/
def convert_indented_code_blocks (lines : List Line) : List Line :=
  convRun (Sum.inl false) lines

/-- Python `s.replace(pat, rep)` for a two-character pattern `a` `b`:
left-to-right, non-overlapping. -/
def replace2 (a b : Char) (rep : List Char) : List Char → List Char
  | [] => []
  | [c] => [c]
  | c :: d :: rest =>
    if c == a && d == b then rep ++ replace2 a b rep rest
    else c :: replace2 a b rep (d :: rest)

/-- Joining and whole-document trimming step of `convert_file`:
`Chr(10).join(line.rstrip() for line in lines).strip()`. -/
def assembled (lines : List Line) : List Char :=
  trim (List.intercalate [ '\n'] (lines.map rstrip))

/-- Replace every non-breaking space by an ordinary space. -/
def nbspToSpace (s : List Char) : List Char :=
  s.map (fun c => if c == '\u00A0' then ' ' else c)

/-- The four escaped-punctuation substitutions of `convert_file`, applied
in source order. -/
def entitySubst (s : List Char) : List Char :=
  replace2 '\\' ']' ( str "&#93;")
    (replace2 '\\' '[' ( str "&#91;")
      (replace2 '\\' '>' ( str "&gt;")
        (replace2 '\\' '<' ( str "&lt;") s)))

/-- Final assembly of `convert_file`: join the processed lines, trim the
whole text, normalize the non-breaking space, substitute the four escaped
characters, and append one newline iff the result is non-empty. -/
def finalize (lines : List Line) : List Char :=
  let md := entitySubst (nbspToSpace (assembled lines))
  if md.isEmpty then md else md ++ [ '\n']

/-- Space-separated concatenation of detail pieces, as described by the
specification (used by the specification-side row formatter). -/
def joinPieces : List Line → List Char
  | [] => []
  | [p] => p
  | p :: ps => p ++ ' ' :: joinPieces ps

/-- Modelled from the wording of the specification for comparison with
`formatRow`: a qualifying row is not blank, not a pure separator, and its
first cell matches the summary-row pattern; the emitted row carries the
trimmed label and the trimmed trailing text followed by each subsequent
non-empty cell's trimmed text, space-separated, in cell order. -/
def specRowC2 (line : Line) : Option Line :=
  let stripped := trim line
  if stripped.isEmpty then none
  else if (stripped.filter (fun c => c != '-')).all (fun c => c == '|') then none
  else
    match split_table_row line with
    | [] => none
    | first :: extras =>
      match summaryRowMatch first with
      | none => none
      | some (g1, g2) =>
        let pieces :=
          (if (trim g2).isEmpty then [] else [trim g2]) ++
            (extras.filter (fun e => !e.isEmpty)).map trim
        some ( str "| " ++ trim g1 ++ str " | " ++ joinPieces pieces ++ str " |")

/-! Helper lemmas about `List.dropWhile`. -/

theorem dropWhile_append_sat {α : Type} (p : α → Bool) :
    ∀ (A B : List α), (∀ x ∈ A, p x = true) → List.dropWhile p (A ++ B) = List.dropWhile p B := by
  intro A
  induction A with
  | nil => intro B _; rfl
  | cons a t ih =>
    intro B h
    have ha : p a = true := h a (List.mem_cons_self a t)
    rw [List.cons_append, List.dropWhile_cons, if_pos ha]
    exact ih B (fun x hx => h x (List.mem_cons_of_mem a hx))

theorem dropWhile_append_exists {α : Type} (p : α → Bool) :
    ∀ (A B : List α), (∃ x ∈ A, p x = false) →
      List.dropWhile p (A ++ B) = List.dropWhile p A ++ B := by
  intro A
  induction A with
  | nil => rintro B ⟨x, hx, _⟩; cases hx
  | cons a t ih =>
    rintro B ⟨x, hx, hpx⟩
    by_cases ha : p a = true
    · have hxt : x ∈ t := by
        rcases List.mem_cons.mp hx with h | h
        · rw [h] at hpx; rw [hpx] at ha; cases ha
        · exact h
      rw [List.cons_append, List.dropWhile_cons, if_pos ha, List.dropWhile_cons, if_pos ha]
      exact ih B ⟨x, hxt, hpx⟩
    · have ha' : p a = false := Bool.eq_false_iff.mpr ha
      rw [List.cons_append, List.dropWhile_cons, if_neg (by simp [ha']),
        List.dropWhile_cons, if_neg (by simp [ha']), List.cons_append]

theorem dropWhile_sat_nil {α : Type} (p : α → Bool) :
    ∀ (l : List α), (∀ x ∈ l, p x = true) → List.dropWhile p l = [] := by
  intro l
  induction l with
  | nil => intro _; rfl
  | cons a t ih =>
    intro h
    rw [List.dropWhile_cons, if_pos (h a (List.mem_cons_self a t))]
    exact ih (fun x hx => h x (List.mem_cons_of_mem a hx))

theorem rstripNewlines_cons (a : Char) (xs : List Char) (h : (a == '\n') = false) :
    rstripNewlines (a :: xs) = a :: rstripNewlines xs := by
  unfold rstripNewlines
  rw [show (a :: xs).reverse = xs.reverse ++ [a] from by simp]
  by_cases hall : ∀ x ∈ xs.reverse, (x == '\n') = true
  · rw [dropWhile_append_sat _ _ _ hall, dropWhile_sat_nil _ _ hall]
    simp [List.dropWhile, h]
  · push_neg at hall
    rcases hall with ⟨x, hx, hxn⟩
    rw [dropWhile_append_exists _ _ _ ⟨x, hx, Bool.eq_false_iff.mpr hxn⟩]
    simp [List.dropWhile, h]

theorem rstripNewlines_append (A B : List Char) (hB : ∃ x ∈ B, (x == '\n') = false) :
    rstripNewlines (A ++ B) = A ++ rstripNewlines B := by
  unfold rstripNewlines
  rw [List.reverse_append,
    dropWhile_append_exists _ _ _ (by rcases hB with ⟨x, hx, hxn⟩; exact ⟨x, by simp [hx], hxn⟩)]
  simp

/-! Claim C1.  The specification example for the summary-table reformatter:
on `["| **Name:** John | **Age:** 30 |", "| --- | --- |"]` the code appends
the second cell to the details unconditionally, so the data row reads
`| Name | John **Age:** 30 |`, not `| Name | John |`. -/

/-- C1 counterexample: the output claimed by the specification example is
not what `format_summary_table` returns on that exact input. -/
theorem C1_counterexample :
    format_summary_table [ str "| **Name:** John | **Age:** 30 |", str "| --- | --- |"] ≠
      [ str "| Field | Details |", str "| --- | --- |", str "| Name | John |"] := by
  decide

/-- C1 amended: on the example input the separator row is skipped and the
second cell `**Age:** 30` is appended to the details of the single data
row, which reads `| Name | John **Age:** 30 |`. -/
theorem C1_amended_thm :
    format_summary_table [ str "| **Name:** John | **Age:** 30 |", str "| --- | --- |"] =
      [ str "| Field | Details |", str "| --- | --- |", str "| Name | John **Age:** 30 |"] := by
  decide

/-- C5: a backslash met outside an escape is retained literally and the one
character following it is appended to the current cell with no delimiter
interpretation (the scan continues unescaped after it); consequently
`split_table_row` keeps an escaped pipe inside one cell, as in the example
row whose cells are `a \| b` and `c`. -/
theorem C5_escape_behavior :
    (∀ (buf : List Char) (c : Char) (rest : List Char),
        splitCells ( '\\' :: c :: rest) buf false = splitCells rest (buf ++ [ '\\', c]) false) ∧
      split_table_row ( str "| a \\| b | c |") = [ str "a \\| b", str "c"] := by
  constructor
  · intro buf c rest
    have h1 : splitCells ( '\\' :: c :: rest) buf false =
        splitCells rest ((buf ++ [ '\\']) ++ [c]) false := rfl
    rw [h1, List.append_assoc]
    rfl
  · decide

/-! Claim C4.  The skip-to-first-marker loop of `split_table_row` does not
track escapes: a backslash before the first `|` is skipped like any other
character and that `|` still starts the row. -/

/-- C4 counterexample: on an input whose first `|` is preceded by a
backslash the cells are computed starting right after that first `|`
(yielding the cell `a`), not from a later unescaped marker (which would
yield no cells at all). -/
theorem C4_counterexample :
    split_table_row ( str "\\| a |") = [ str "a"] ∧ [ str "a"] ≠ ([] : List Line) := by
  decide

/-- C4 amended: `split_table_row` ignores every character before the first
`|` regardless of escaping — a backslash there neither escapes the marker
nor reaches the cell scanner — so any `|`-free text before the first `|`
can be removed without changing the cells. -/
theorem C4_amended_thm (pre rest : List Char) (h : ∀ c ∈ pre, c ≠ '|') :
    split_table_row (pre ++ '|' :: rest) = split_table_row ( '|' :: rest) := by
  unfold split_table_row
  have hcons : rstripNewlines ( '|' :: rest) = '|' :: rstripNewlines rest :=
    rstripNewlines_cons _ _ (by decide)
  have h1 : rstripNewlines (pre ++ '|' :: rest) = pre ++ '|' :: rstripNewlines rest := by
    rw [rstripNewlines_append _ _ ⟨ '|', List.mem_cons_self _ _, by decide⟩, hcons]
  have h2 : List.dropWhile (fun c => c != '|') (pre ++ '|' :: rstripNewlines rest) =
      '|' :: rstripNewlines rest := by
    rw [dropWhile_append_sat _ _ _ (fun x hx => by
        simpa [bne_iff_ne] using h x hx),
      List.dropWhile_cons, if_neg (by simp)]
  rw [h1, h2, hcons, List.dropWhile_cons, if_neg (by simp)]

/-- C4 witness: the amended theorem applied to the concrete row whose first
`|` is preceded by a backslash. -/
theorem C4_witness :
    (∀ c ∈ ([ '\\'] : List Char), c ≠ '|') ∧
      split_table_row ([ '\\'] ++ '|' :: str " a |") = split_table_row ( '|' :: str " a |") :=
  ⟨by decide, C4_amended_thm [ '\\'] ( str " a |") (by decide)⟩

/-! Table-block scan of `rewrite_summary_tables`. -/

theorem flushTable_nil : flushTable [] = [] := rfl

theorem rewriteRun_acc :
    ∀ (b acc rest : List Line), (∀ x ∈ b, startsWithBar x = true) →
      (rest = [] ∨ startsWithBar (rest.headD []) = false) →
      rewriteRun acc (b ++ rest) = flushTable (acc ++ b) ++ rewriteRun [] rest := by
  intro b
  induction b with
  | nil =>
    intro acc rest _ hrest
    rcases hrest with h | h
    · subst h
      show flushTable acc = flushTable (acc ++ []) ++ flushTable []
      rw [flushTable_nil, List.append_nil, List.append_nil]
    · cases rest with
      | nil =>
        show flushTable acc = flushTable (acc ++ []) ++ flushTable []
        rw [flushTable_nil, List.append_nil, List.append_nil]
      | cons r rs =>
        have hr : startsWithBar r = false := h
        show rewriteRun acc (r :: rs) = flushTable (acc ++ []) ++ rewriteRun [] (r :: rs)
        rw [List.append_nil]
        show (if startsWithBar r then rewriteRun (acc ++ [r]) rs
            else flushTable acc ++ r :: rewriteRun [] rs) =
          flushTable acc ++ (if startsWithBar r then rewriteRun ([] ++ [r]) rs
            else flushTable [] ++ r :: rewriteRun [] rs)
        rw [if_neg (by simp [hr]), if_neg (by simp [hr]), flushTable_nil, List.nil_append]
  | cons z zs ih =>
    intro acc rest hb hrest
    have hz : startsWithBar z = true := hb z (List.mem_cons_self z zs)
    show (if startsWithBar z then rewriteRun (acc ++ [z]) (zs ++ rest)
        else flushTable acc ++ z :: rewriteRun [] (zs ++ rest)) =
      flushTable (acc ++ z :: zs) ++ rewriteRun [] rest
    rw [if_pos (by simp [hz]),
      ih (acc ++ [z]) rest (fun x hx => hb x (List.mem_cons_of_mem z hx)) hrest,
      List.append_assoc]
    rfl

/-- C6: `rewrite_summary_tables` passes every line that does not start with
the marker through unchanged, and replaces every maximal contiguous run of
marker-prefixed lines by the reformatter's output when the classifier
accepts it, leaving the run unchanged otherwise, preserving relative
order. -/
theorem C6_rewrite_blocks :
    (∀ (l : Line) (ls : List Line), startsWithBar l = false →
        rewrite_summary_tables (l :: ls) = l :: rewrite_summary_tables ls) ∧
      (∀ (b rest : List Line), b ≠ [] → (∀ x ∈ b, startsWithBar x = true) →
        (rest = [] ∨ startsWithBar (rest.headD []) = false) →
        rewrite_summary_tables (b ++ rest) =
          (if is_summary_table b then format_summary_table b else b) ++
            rewrite_summary_tables rest) := by
  constructor
  · intro l ls hl
    show (if startsWithBar l then rewriteRun ([] ++ [l]) ls
        else flushTable [] ++ l :: rewriteRun [] ls) = l :: rewriteRun [] ls
    rw [if_neg (by simp [hl]), flushTable_nil, List.nil_append]
  · intro b rest _ hb hrest
    have h := rewriteRun_acc b [] rest hb hrest
    rw [List.nil_append] at h
    exact h

/-- C6 witness: the block equation applied to a concrete one-row summary
table followed by a non-table line. -/
theorem C6_witness :
    rewrite_summary_tables ([ str "| **Name:** Alice |"] ++ [ str "x"]) =
      (if is_summary_table [ str "| **Name:** Alice |"]
        then format_summary_table [ str "| **Name:** Alice |"]
        else [ str "| **Name:** Alice |"]) ++ rewrite_summary_tables [ str "x"] :=
  C6_rewrite_blocks.2 [ str "| **Name:** Alice |"] [ str "x"] (by decide) (by decide) (by decide)

/-! Blank-line collapsing. -/

theorem collapseGo_blankrun :
    ∀ (run : List Line) (k : Nat) (rest : List Line), (∀ x ∈ run, (trim x).isEmpty = true) →
      (rest = [] ∨ notBlank (rest.headD []) = true) →
      collapseGo (run ++ rest) k =
        List.replicate (min run.length (2 - k)) ([] : Line) ++ collapseGo rest 0 := by
  intro run
  induction run with
  | nil =>
    intro k rest _ hrest
    rw [List.nil_append]
    rcases hrest with h | h
    · subst h; simp [collapseGo]
    · cases rest with
      | nil => simp [collapseGo]
      | cons r rs =>
        have hr : (trim r).isEmpty = false := by
          have := h
          simp only [List.headD_cons, notBlank, Bool.not_eq_true'] at this
          exact this
        show collapseGo (r :: rs) k = List.replicate (min 0 (2 - k)) [] ++ collapseGo (r :: rs) 0
        simp only [Nat.min_def, Nat.zero_le, if_pos, List.replicate_zero, List.nil_append]
        show (if (trim r).isEmpty = true then _ else rstrip r :: collapseGo rs 0) =
          (if (trim r).isEmpty = true then _ else rstrip r :: collapseGo rs 0)
        rw [if_neg (by simp [hr]), if_neg (by simp [hr])]
  | cons x xs ih =>
    intro k rest hrun hrest
    have hx : (trim x).isEmpty = true := hrun x (List.mem_cons_self x xs)
    have hxs : ∀ y ∈ xs, (trim y).isEmpty = true := fun y hy => hrun y (List.mem_cons_of_mem x hy)
    show (if (trim x).isEmpty = true then
        (if k + 1 ≤ 2 then [([] : Line)] else []) ++ collapseGo (xs ++ rest) (k + 1)
      else rstrip x :: collapseGo (xs ++ rest) 0) = _
    rw [if_pos (by simp [hx]), ih (k + 1) rest hxs hrest]
    by_cases hk : k + 1 ≤ 2
    · have hmin : min (xs.length + 1) (2 - k) = min xs.length (2 - (k + 1)) + 1 := by omega
      rw [if_pos hk]
      show [([] : Line)] ++ (List.replicate (min xs.length (2 - (k + 1))) [] ++ collapseGo rest 0) =
        List.replicate (min (x :: xs).length (2 - k)) [] ++ collapseGo rest 0
      rw [List.length_cons, hmin, List.replicate_succ]
      simp [List.cons_append]
    · have hmin : min ((x :: xs).length) (2 - k) = 0 := by simp [List.length_cons]; omega
      have hmin' : min xs.length (2 - (k + 1)) = 0 := by omega
      rw [if_neg hk, hmin, hmin']
      simp

/-- C8: `collapse_blank_lines` emits every non-blank line right-stripped
(resetting the blank counter), caps every maximal run of blank lines at two
emitted empty lines, and maps the specification example accordingly. -/
theorem C8_collapse_blank_lines :
    (∀ (l : Line) (ls : List Line), notBlank l = true →
        collapse_blank_lines (l :: ls) = rstrip l :: collapse_blank_lines ls) ∧
      (∀ (run rest : List Line), (∀ x ∈ run, notBlank x = false) →
        (rest = [] ∨ notBlank (rest.headD []) = true) →
        collapse_blank_lines (run ++ rest) =
          List.replicate (min run.length 2) ([] : Line) ++ collapse_blank_lines rest) ∧
      collapse_blank_lines [ str "a", [], [], [], str "b"] = [ str "a", [], [], str "b"] := by
  refine ⟨?_, ?_, by decide⟩
  · intro l ls hl
    have hl' : (trim l).isEmpty = false := by
      simpa [notBlank, Bool.not_eq_true'] using hl
    show (if (trim l).isEmpty = true then _ else rstrip l :: collapseGo ls 0) = _
    rw [if_neg (by simp [hl'])]
    rfl
  · intro run rest hrun hrest
    have hrun' : ∀ x ∈ run, (trim x).isEmpty = true := by
      intro x hx
      have := hrun x hx
      simpa [notBlank, Bool.not_eq_false] using this
    have h := collapseGo_blankrun run 0 rest hrun' hrest
    simpa using h

/-- C8 witness: the blank-run equation applied to a three-blank run (one of
the blanks whitespace-only) followed by a non-blank line. -/
theorem C8_witness :
    collapse_blank_lines ([[], [ ' '], []] ++ [ str "b"]) =
      List.replicate (min ([[], [ ' '], []] : List Line).length 2) ([] : Line) ++
        collapse_blank_lines [ str "b"] :=
  (C8_collapse_blank_lines.2.1) [[], [ ' '], []] [ str "b"] (by decide) (by decide)

/-! Indented-region scan of `convert_indented_code_blocks`. -/

theorem convRun_inl_skip (w1 w2 : Bool) (rest : List Line)
    (h : rest = [] ∨ indentedOrBlank (rest.headD []) = false) :
    convRun (Sum.inl w1) rest = convRun (Sum.inl w2) rest := by
  rcases h with h | h
  · subst h; rfl
  · cases rest with
    | nil => rfl
    | cons r rs =>
      have hr4 : startsWith4 r = false := by
        have h' : indentedOrBlank r = false := h
        simp only [indentedOrBlank, Bool.or_eq_false_iff] at h'
        exact h'.1
      simp [convRun, hr4]

theorem convRun_collect :
    ∀ (b consumed rest : List Line), (∀ x ∈ b, indentedOrBlank x = true) →
      (rest = [] ∨ indentedOrBlank (rest.headD []) = false) →
      convRun (Sum.inr consumed) (b ++ rest) =
        emitBlock (consumed ++ b) ++ convRun (Sum.inl true) rest := by
  intro b
  induction b with
  | nil =>
    intro consumed rest _ hrest
    rw [List.nil_append, List.append_nil]
    rcases hrest with h | h
    · subst h; simp [convRun]
    · cases rest with
      | nil => simp [convRun]
      | cons r rs =>
        have hio : indentedOrBlank r = false := h
        have hr4 : startsWith4 r = false := by
          simp only [indentedOrBlank, Bool.or_eq_false_iff] at hio
          exact (by simp only [indentedOrBlank, Bool.or_eq_false_iff] at h; exact h.1)
        simp [convRun, hio, hr4]
  | cons z zs ih =>
    intro consumed rest hb hrest
    have hz : indentedOrBlank z = true := hb z (List.mem_cons_self z zs)
    have step : convRun (Sum.inr consumed) (z :: (zs ++ rest)) =
        convRun (Sum.inr (consumed ++ [z])) (zs ++ rest) := by
      simp [convRun, hz]
    rw [List.cons_append, step,
      ih (consumed ++ [z]) rest (fun y hy => hb y (List.mem_cons_of_mem z hy)) hrest,
      List.append_assoc]
    rfl

theorem convRun_block (b rest : List Line) (h1 : startsWith4 (b.headD []) = true)
    (h2 : ∀ x ∈ b, indentedOrBlank x = true)
    (h3 : rest = [] ∨ indentedOrBlank (rest.headD []) = false) :
    convert_indented_code_blocks (b ++ rest) =
      emitBlock b ++ convRun (Sum.inl (notBlank (b.getLastD []))) rest := by
  cases b with
  | nil => cases h1
  | cons x xs =>
    have hx4 : startsWith4 x = true := h1
    show convRun (Sum.inl false) ((x :: xs) ++ rest) = _
    have step : convRun (Sum.inl false) (x :: (xs ++ rest)) =
        convRun (Sum.inr [x]) (xs ++ rest) := by
      simp [convRun, hx4]
    rw [List.cons_append, step,
      convRun_collect xs [x] rest (fun y hy => h2 y (List.mem_cons_of_mem x hy)) h3,
      convRun_inl_skip true (notBlank ((x :: xs).getLastD [])) rest h3]
    rfl

/-! Claim C3.  Non-fenced collected blocks are not always re-emitted
verbatim: a source line of exactly four spaces is collected as a blank
entry and re-emitted as an empty line, and a block of only blank entries
that saw an internal blank line is dropped entirely. -/

/-- C3 counterexample: the collected block of the document
`["    ", ""]` does not qualify for fencing (it is empty after trimming
blank entries), yet the output is neither the input sub-range nor the
blank-for-blank re-emission the claim describes — the block vanishes. -/
theorem C3_counterexample :
    convert_indented_code_blocks [ str "    ", []] ≠ [ str "    ", []] ∧
      convert_indented_code_blocks [ str "    ", []] ≠ [[], []] := by
  decide

/-- C3 amended: a collected block that does not qualify for fencing is
re-emitted with every non-blank collected entry regaining the four-space
indent and every blank entry emitted as an empty line — except that a
block which saw an internal blank line but trims to nothing is dropped
entirely; a line of exactly four spaces is collected as a blank entry, so
such re-emission need not reproduce the input sub-range byte-for-byte. -/
theorem C3_amended_thm (b rest : List Line) (h1 : startsWith4 (b.headD []) = true)
    (h2 : ∀ x ∈ b, indentedOrBlank x = true)
    (h3 : rest = [] ∨ indentedOrBlank (rest.headD []) = false)
    (h4 : sawBlankOf b = true → trimBlanks (blockOf b) = []) :
    convert_indented_code_blocks (b ++ rest) =
      (if sawBlankOf b = true then [] else reemitBlock (blockOf b)) ++
        convRun (Sum.inl (notBlank (b.getLastD []))) rest := by
  rw [convRun_block b rest h1 h2 h3]
  congr 1
  have hbne : b ≠ [] := by
    intro hb
    rw [hb] at h1
    cases h1
  have hblock : (blockOf b).isEmpty = false := by
    cases b with
    | nil => exact absurd rfl hbne
    | cons x xs => rfl
  unfold emitBlock
  by_cases hs : sawBlankOf b = true
  · rw [if_pos ⟨hblock, hs⟩, if_pos hs, h4 hs]
    rw [if_neg (by simp)]
    rfl
  · rw [if_neg (by intro hc; exact hs hc.2), if_neg hs]

/-- C3 witness: the amended equation applied to a one-line indented block
(no internal blank line) followed by a plain line. -/
theorem C3_witness :
    convert_indented_code_blocks ([ str "    x"] ++ [ str "y"]) =
      (if sawBlankOf [ str "    x"] = true then [] else reemitBlock (blockOf [ str "    x"])) ++
        convRun (Sum.inl (notBlank ([ str "    x"].getLastD []))) [ str "y"] :=
  C3_amended_thm [ str "    x"] [ str "y"] (by decide) (by decide) (by decide) (by decide)

/-! Claim C7.  The fencing decision: the claimed criterion (non-empty block
with an internal blank line) is not sufficient, because a block that trims
to nothing is dropped rather than fenced. -/

/-- C7 counterexample: the block collected after the blank first line of
`["", "    ", ""]` is non-empty and contains an internal blank line, yet
it is not replaced by a fenced block — the output keeps only the leading
blank line. -/
theorem C7_counterexample :
    convert_indented_code_blocks [[], str "    ", []] = [[]] ∧
      ([[]] : List Line) ≠ [[], str "```", str "```"] := by
  decide

/-- C7 amended: a four-space line at document start or right after a blank
line opens a collected block, and the block is replaced by a fenced block
iff it saw an internal blank line and still has content after trimming
boundary blank entries, the replacement being the trimmed block between
two fence lines; the specification examples behave as stated. -/
theorem C7_amended_thm :
    (∀ (b rest : List Line), startsWith4 (b.headD []) = true →
        (∀ x ∈ b, indentedOrBlank x = true) →
        (rest = [] ∨ indentedOrBlank (rest.headD []) = false) →
        sawBlankOf b = true → (trimBlanks (blockOf b)).isEmpty = false →
        convert_indented_code_blocks (b ++ rest) =
          ( str "```" :: (trimBlanks (blockOf b) ++ [ str "```"])) ++
            convRun (Sum.inl (notBlank (b.getLastD []))) rest) ∧
      convert_indented_code_blocks [[], str "    x = 1", [], str "    y = 2"] =
        [[], str "```", str "x = 1", [], str "y = 2", str "```"] ∧
      convert_indented_code_blocks [ str "a", str "    x = 1", [], str "    y = 2"] =
        [ str "a", str "    x = 1", [], str "    y = 2"] := by
  refine ⟨?_, by decide, by decide⟩
  intro b rest h1 h2 h3 h4 h5
  rw [convRun_block b rest h1 h2 h3]
  congr 1
  have hbne : b ≠ [] := by
    intro hb
    rw [hb] at h1
    cases h1
  have hblock : (blockOf b).isEmpty = false := by
    cases b with
    | nil => exact absurd rfl hbne
    | cons x xs => rfl
  unfold emitBlock
  rw [if_pos ⟨hblock, h4⟩, if_pos h5]

/-- C7 witness: the fencing equation applied to a concrete indented block
with an internal blank line, followed by a plain line. -/
theorem C7_witness :
    convert_indented_code_blocks ([ str "    x = 1", [], str "    y = 2"] ++ [ str "end"]) =
      ( str "```" :: (trimBlanks (blockOf [ str "    x = 1", [], str "    y = 2"]) ++
          [ str "```"])) ++
        convRun (Sum.inl (notBlank ([ str "    x = 1", [], str "    y = 2"].getLastD [])))
          [ str "end"] :=
  C7_amended_thm.1 [ str "    x = 1", [], str "    y = 2"] [ str "end"]
    (by decide) (by decide) (by decide) (by decide) (by decide)

/-! Facts about `trim` and cell membership. -/

theorem dropWhile_head_false {α : Type} (p : α → Bool) :
    ∀ (l : List α) (h : α), (l.dropWhile p).head? = some h → p h = false := by
  intro l
  induction l with
  | nil => intro h hh; cases hh
  | cons a t ih =>
    intro h hh
    rw [List.dropWhile_cons] at hh
    by_cases hp : p a = true
    · exact ih h (by rwa [if_pos hp] at hh)
    · rw [if_neg (by simpa using hp)] at hh
      have : a = h := by simpa using hh
      subst this
      exact Bool.eq_false_iff.mpr hp

theorem dropWhile_eq_self_of_head {α : Type} (p : α → Bool) (l : List α)
    (h : ∀ x, l.head? = some x → p x = false) : l.dropWhile p = l := by
  cases l with
  | nil => rfl
  | cons a t =>
    have ha : p a = false := h a rfl
    rw [List.dropWhile_cons, if_neg (by simp [ha])]

theorem getLast?_dropWhile_imp {α : Type} (p : α → Bool) :
    ∀ (l : List α) (h : α), (l.dropWhile p).getLast? = some h → l.getLast? = some h := by
  intro l
  induction l with
  | nil => intro h hh; cases hh
  | cons a t ih =>
    intro h hh
    rw [List.dropWhile_cons] at hh
    by_cases hp : p a = true
    · rw [if_pos hp] at hh
      have ht := ih h hh
      cases t with
      | nil => cases ht
      | cons b t' => rw [List.getLast?_cons_cons]; exact ht
    · rwa [if_neg (by simpa using hp)] at hh

theorem trim_head_false (s : Line) : ∀ h, (trim s).head? = some h → isSpace h = false := by
  intro h hh
  unfold trim rstrip lstrip at hh
  rw [List.head?_reverse] at hh
  have h1 := getLast?_dropWhile_imp isSpace ((s.dropWhile isSpace).reverse) h hh
  rw [List.getLast?_reverse] at h1
  exact dropWhile_head_false isSpace _ h h1

theorem trim_getLast_false (s : Line) : ∀ h, (trim s).getLast? = some h → isSpace h = false := by
  intro h hh
  unfold trim rstrip lstrip at hh
  rw [List.getLast?_reverse] at hh
  exact dropWhile_head_false isSpace _ h hh

theorem rstrip_eq_self_of_getLast (s : Line)
    (h : ∀ x, s.getLast? = some x → isSpace x = false) : rstrip s = s := by
  unfold rstrip
  rw [dropWhile_eq_self_of_head isSpace s.reverse
    (fun x hx => h x (by rwa [List.head?_reverse] at hx)), List.reverse_reverse]

theorem trim_idem (s : Line) : trim (trim s) = trim s := by
  have h1 : lstrip (trim s) = trim s :=
    dropWhile_eq_self_of_head isSpace (trim s) (trim_head_false s)
  show rstrip (lstrip (trim s)) = trim s
  rw [h1]
  exact rstrip_eq_self_of_getLast (trim s) (trim_getLast_false s)

theorem mem_dropWhile_of_false {α : Type} (p : α → Bool) :
    ∀ (l : List α) (c : α), c ∈ l → p c = false → c ∈ l.dropWhile p := by
  intro l
  induction l with
  | nil => intro c hc; cases hc
  | cons a t ih =>
    intro c hc hpc
    rw [List.dropWhile_cons]
    by_cases hp : p a = true
    · rw [if_pos hp]
      rcases List.mem_cons.mp hc with h | h
      · subst h; rw [hpc] at hp; cases hp
      · exact ih c h hpc
    · rw [if_neg (by simpa using hp)]
      exact hc

theorem mem_trim (s : Line) (c : Char) (hc : c ∈ s) (hsp : isSpace c = false) : c ∈ trim s := by
  unfold trim rstrip lstrip
  rw [List.mem_reverse]
  apply mem_dropWhile_of_false isSpace _ c _ hsp
  rw [List.mem_reverse]
  exact mem_dropWhile_of_false isSpace s c hc hsp

theorem containsBold_mem : ∀ (l : Line), containsBold l = true → '*' ∈ l := by
  intro l
  induction l with
  | nil => intro h; cases h
  | cons a t ih =>
    intro h
    cases t with
    | nil => simp [containsBold] at h
    | cons b t' =>
      have h' : ((a == '*' && b == '*') || containsBold (b :: t')) = true := h
      rcases (Bool.or_eq_true _ _).mp h' with hpair | hrec
      · have ha : a = '*' := by
          have := (Bool.and_eq_true _ _).mp hpair
          exact (beq_iff_eq.mp this.1)
        exact List.mem_cons.mpr (Or.inl ha.symm)
      · exact List.mem_cons_of_mem a (ih hrec)

/-! Claim C10: whenever the classifier accepts a table block, the formatter
emits at least one data row beyond the fixed two-row prelude. -/

/-- C10: if `is_summary_table` returns true for a block then
`format_summary_table` returns at least three lines: the witnessing row is
non-blank, its bold marker keeps it from looking like a pure separator
line, and its matching first cell is non-empty, so it passes every filter
of the formatter and is emitted. -/
theorem C10_classifier_formatter (tl : List Line) (h : is_summary_table tl = true) :
    3 ≤ (format_summary_table tl).length := by
  unfold is_summary_table at h
  rw [List.any_eq_true] at h
  rcases h with ⟨line, hmem, hline⟩
  rw [Bool.and_eq_true, Bool.and_eq_true] at hline
  obtain ⟨⟨hnb, hbold⟩, hmatch⟩ := hline
  have hnb' : (trim line).isEmpty = false := by simpa using hnb
  have hsep : ((trim line).filter (fun c => c != '-')).all (fun c => c == '|') = false := by
    have hstar : '*' ∈ (trim line).filter (fun c => c != '-') := by
      rw [List.mem_filter]
      exact ⟨mem_trim line '*' (containsBold_mem line hbold) (by decide), by decide⟩
    cases hall : ((trim line).filter (fun c => c != '-')).all (fun c => c == '|') with
    | false => rfl
    | true =>
      have := List.all_eq_true.mp hall '*' hstar
      simp at this
  obtain ⟨c0, cs, hsp⟩ : ∃ c0 cs, split_table_row line = c0 :: cs := by
    cases hsp : split_table_row line with
    | nil => rw [hsp] at hmatch; cases hmatch
    | cons c0 cs => exact ⟨c0, cs, rfl⟩
  rw [hsp] at hmatch
  obtain ⟨g, hg⟩ := Option.isSome_iff_exists.mp hmatch
  have hc0 : c0.isEmpty = false := by
    cases c0 with
    | nil => cases hg
    | cons a t => rfl
  have hrow : (formatRow line).isSome = true := by
    simp only [formatRow]
    rw [hsp]
    simp [hnb', hsep, hc0, hg]
  obtain ⟨y, hy⟩ := Option.isSome_iff_exists.mp hrow
  have hymem : y ∈ tl.filterMap formatRow := List.mem_filterMap.mpr ⟨line, hmem, hy⟩
  have hlen : 1 ≤ (tl.filterMap formatRow).length :=
    List.length_pos.mpr (List.ne_nil_of_mem hymem)
  show 3 ≤ ( str "| Field | Details |" :: str "| --- | --- |" :: tl.filterMap formatRow).length
  rw [List.length_cons, List.length_cons]
  omega

/-- C10 witness: the bound applied to a concrete accepted block. -/
theorem C10_witness : 3 ≤ (format_summary_table [ str "| **Name:** Alice |"]).length :=
  C10_classifier_formatter [ str "| **Name:** Alice |"] (by decide)

/-! Claim C2: the formatter agrees with the specification-side row
description. -/

theorem splitCells_trim_fixed :
    ∀ (l buf : List Char) (esc : Bool) (c : Line), c ∈ splitCells l buf esc → trim c = c := by
  intro l
  induction l with
  | nil =>
    intro buf esc c hc
    by_cases hb : buf.isEmpty = true
    · simp [splitCells, hb] at hc
    · have hc' : c = trim buf := by
        have : c ∈ [trim buf] := by simpa [splitCells, hb] using hc
        simpa using this
      rw [hc']
      exact trim_idem buf
  | cons a t ih =>
    intro buf esc c hc
    cases esc with
    | true => exact ih (buf ++ [a]) false c hc
    | false =>
      by_cases ha : (a == '|') = true
      · have hc' : c ∈ trim buf :: splitCells t [] false := by
          simpa [splitCells, ha] using hc
        rcases List.mem_cons.mp hc' with h | h
        · rw [h]; exact trim_idem buf
        · exact ih [] false c h
      · by_cases hb : (a == '\\') = true
        · exact ih (buf ++ [a]) true c (by simpa [splitCells, ha, hb] using hc)
        · exact ih (buf ++ [a]) false c (by simpa [splitCells, ha, hb] using hc)

theorem split_table_row_mem_trim (line : Line) : ∀ c ∈ split_table_row line, trim c = c := by
  intro c hc
  unfold split_table_row at hc
  cases h : (rstripNewlines line).dropWhile (fun c => c != '|') with
  | nil => rw [h] at hc; cases hc
  | cons a rest => rw [h] at hc; exact splitCells_trim_fixed rest [] false c hc

theorem joinPieces_glue (d e : List Char) (L : List Line) :
    joinPieces ((d ++ ' ' :: e) :: L) = d ++ ' ' :: joinPieces (e :: L) := by
  cases L with
  | nil => rfl
  | cons x xs =>
    show (d ++ ' ' :: e) ++ ' ' :: joinPieces (x :: xs) =
      d ++ ' ' :: (e ++ ' ' :: joinPieces (x :: xs))
    rw [List.append_assoc]
    rfl

theorem fold_details :
    ∀ (extras : List Line) (d : List Char), (∀ e ∈ extras, trim e = e) →
      extras.foldl
          (fun d e => if e.isEmpty then d else if d.isEmpty then trim e else d ++ ' ' :: trim e)
          d =
        joinPieces ((if d.isEmpty then [] else [d]) ++
          (extras.filter (fun e => !e.isEmpty)).map trim) := by
  intro extras
  induction extras with
  | nil =>
    intro d _
    by_cases hd : d.isEmpty = true
    · have : d = [] := by simpa using hd
      subst this
      simp [joinPieces]
    · simp [hd, joinPieces]
  | cons e es ih =>
    intro d hT
    have hTe : trim e = e := hT e (List.mem_cons_self e es)
    have hTes : ∀ x ∈ es, trim x = x := fun x hx => hT x (List.mem_cons_of_mem e hx)
    rw [List.foldl_cons]
    by_cases he : e.isEmpty = true
    · rw [if_pos he, ih d hTes]
      simp [List.filter_cons, he]
    · rw [if_neg (by simp [he])]
      by_cases hd : d.isEmpty = true
      · have : d = [] := by simpa using hd
        subst this
        rw [if_pos (by simp), ih (trim e) hTes, hTe]
        have hepr : (if e.isEmpty then ([] : List Line) else [e]) = [e] := by simp [he]
        rw [hepr]
        simp [List.filter_cons, he, hTe]
      · rw [if_neg (by simp [hd]), hTe, ih (d ++ ' ' :: e) hTes]
        have hde : (d ++ ' ' :: e).isEmpty = false := by
          cases d <;> rfl
        rw [show (if (d ++ ' ' :: e).isEmpty then ([] : List Line) else [d ++ ' ' :: e]) =
            [d ++ ' ' :: e] from by simp [hde]]
        rw [show (if d.isEmpty then ([] : List Line) else [d]) = [d] from by simp [hd]]
        rw [List.cons_append, List.nil_append, joinPieces_glue]
        rw [List.cons_append, List.nil_append]
        rw [List.filter_cons_of_pos (by simp [he]), List.map_cons, hTe]
        rfl

theorem formatRow_eq_specRow (line : Line) : formatRow line = specRowC2 line := by
  simp only [formatRow, specRowC2]
  by_cases h1 : (trim line).isEmpty = true
  · simp [h1]
  · by_cases h2 : ((trim line).filter (fun c => c != '-')).all (fun c => c == '|') = true
    · simp [h1, h2]
    · cases hsp : split_table_row line with
      | nil => simp [h1, h2, hsp]
      | cons first extras =>
        cases hm : summaryRowMatch first with
        | none =>
          simp [h1, h2, hsp, hm]
        | some g =>
          obtain ⟨g1, g2⟩ := g
          have hf : first.isEmpty = false := by
            cases first with
            | nil => cases hm
            | cons a t => rfl
          have hextras : ∀ e ∈ extras, trim e = e := fun e he =>
            split_table_row_mem_trim line e (hsp ▸ List.mem_cons_of_mem first he)
          have hdetails :
              extras.foldl
                  (fun d e =>
                    if e.isEmpty then d else if d.isEmpty then trim e else d ++ ' ' :: trim e)
                  (trim g2) =
                joinPieces ((if (trim g2).isEmpty then [] else [trim g2]) ++
                  (extras.filter (fun e => !e.isEmpty)).map trim) :=
            fold_details extras (trim g2) hextras
          simp [h1, h2, hsp, hm, hf]
          simpa using hdetails

/-- C2: for every table block, `format_summary_table` returns the fixed
header row and separator row followed by exactly one data row per
qualifying input row — one that is not blank, not a pure separator, and
whose first cell matches the summary-row pattern with a non-empty bold
label — whose details are the trimmed trailing text of the first cell
followed by each subsequent non-empty cell's trimmed text, space
separated, in cell order; all other rows are dropped. -/
theorem C2_format_summary_table_spec (tl : List Line) :
    format_summary_table tl =
      str "| Field | Details |" :: str "| --- | --- |" :: tl.filterMap specRowC2 := by
  unfold format_summary_table
  rw [show formatRow = specRowC2 from funext formatRow_eq_specRow]

/-! Claim C9: the final assembly step. -/

theorem concat_shape_tail {x : Char} {xs t : List Char} {ch : Char}
    (h : x :: xs = t ++ [ch]) (hne : xs ≠ []) : ∃ t2, xs = t2 ++ [ch] := by
  cases xs with
  | nil => exact absurd rfl hne
  | cons y ys =>
    have h1 : (x :: y :: ys).getLast? = some ch := by
      rw [h]
      exact List.getLast?_concat _
    have h2 : (y :: ys).getLast? = some ch := by rwa [List.getLast?_cons_cons] at h1
    rcases List.eq_nil_or_concat (y :: ys) with h3 | ⟨L, b, h3⟩
    · cases h3
    · have h4 : (y :: ys).getLast? = some b := by
        rw [h3, List.concat_eq_append]
        exact List.getLast?_concat _
      have hbc : b = ch := by
        rw [h4] at h2
        simpa using h2
      exact ⟨L, by rw [h3, List.concat_eq_append, hbc]⟩

theorem replace2_keeps (a b : Char) (rep : List Char)
    (hrep : ∃ rt rc, rep = rt ++ [rc] ∧ isSpace rc = false) :
    ∀ (n : Nat) (s : List Char), s.length ≤ n →
      (∃ t c, s = t ++ [c] ∧ isSpace c = false) →
      ∃ t2 c2, replace2 a b rep s = t2 ++ [c2] ∧ isSpace c2 = false := by
  intro n
  induction n with
  | zero =>
    rintro s hlen ⟨t, c, hs, _⟩
    subst hs
    simp at hlen
  | succ n ih =>
    rintro s hlen ⟨t, c, hs, hc⟩
    cases s with
    | nil => exact absurd hs.symm (by simp)
    | cons x xs =>
      cases xs with
      | nil =>
        have hcx : c = x := by
          cases t with
          | nil => simpa using hs.symm
          | cons u us =>
            have := congrArg List.length hs
            simp [List.length_append] at this
        refine ⟨[], x, rfl, ?_⟩
        rw [← hcx]
        exact hc
      | cons d rest2 =>
        by_cases hpat : (x == a && d == b) = true
        · have hrw : replace2 a b rep (x :: d :: rest2) = rep ++ replace2 a b rep rest2 := by
            simp [replace2, hpat]
          rw [hrw]
          cases rest2 with
          | nil =>
            obtain ⟨rt, rc, hr, hrc⟩ := hrep
            exact ⟨rt, rc, by rw [show replace2 a b rep [] = [] from rfl, List.append_nil, hr],
              hrc⟩
          | cons r rs =>
            obtain ⟨t1, ht1⟩ := concat_shape_tail hs (by simp)
            obtain ⟨t2, ht2⟩ := concat_shape_tail ht1 (by simp)
            obtain ⟨t3, c3, h3, hc3⟩ :=
              ih (r :: rs) (by simp at hlen ⊢; omega) ⟨t2, c, ht2, hc⟩
            exact ⟨rep ++ t3, c3, by rw [h3, List.append_assoc], hc3⟩
        · have hrw : replace2 a b rep (x :: d :: rest2) = x :: replace2 a b rep (d :: rest2) := by
            simp [replace2, hpat]
          rw [hrw]
          obtain ⟨t1, ht1⟩ := concat_shape_tail hs (by simp)
          obtain ⟨t3, c3, h3, hc3⟩ :=
            ih (d :: rest2) (by simp at hlen ⊢; omega) ⟨t1, c, ht1, hc⟩
          exact ⟨x :: t3, c3, by rw [h3]; rfl, hc3⟩

theorem trim_shape (s : Line) :
    trim s = [] ∨ ∃ t c, trim s = t ++ [c] ∧ isSpace c = false := by
  rcases List.eq_nil_or_concat (trim s) with h | ⟨L, b, h⟩
  · exact Or.inl h
  · right
    refine ⟨L, b, by rw [h, List.concat_eq_append], ?_⟩
    refine trim_getLast_false s b ?_
    rw [h, List.concat_eq_append]
    exact List.getLast?_concat _

theorem nbspToSpace_shape (t : List Char) (c : Char) (hc : isSpace c = false) :
    nbspToSpace (t ++ [c]) = nbspToSpace t ++ [c] := by
  unfold nbspToSpace
  rw [List.map_append]
  have hnb : (c == ' ') = false := by
    cases hcc : c == ' ' with
    | false => rfl
    | true =>
      have : c = ' ' := beq_iff_eq.mp hcc
      rw [this] at hc
      cases hc
  simp only [List.map_cons, List.map_nil]
  have hif : (if c == '\u00A0' then ' ' else c) = c := by
    rw [if_neg (by simp [hnb])]
  rw [hif]

theorem entitySubst_shape (s : List Char)
    (h : ∃ t c, s = t ++ [c] ∧ isSpace c = false) :
    ∃ t2 c2, entitySubst s = t2 ++ [c2] ∧ isSpace c2 = false := by
  unfold entitySubst
  have r1 := replace2_keeps '\\' '<' ( str "&lt;") ⟨ str "&lt", ';', rfl, by decide⟩
    s.length s le_rfl h
  obtain ⟨t1, c1, h1, hc1⟩ := r1
  have r2 := replace2_keeps '\\' '>' ( str "&gt;") ⟨ str "&gt", ';', rfl, by decide⟩
    _ _ le_rfl ⟨t1, c1, h1, hc1⟩
  obtain ⟨t2, c2, h2, hc2⟩ := r2
  have r3 := replace2_keeps '\\' '[' ( str "&#91;") ⟨ str "&#91", ';', rfl, by decide⟩
    _ _ le_rfl ⟨t2, c2, h2, hc2⟩
  obtain ⟨t3, c3, h3, hc3⟩ := r3
  have r4 := replace2_keeps '\\' ']' ( str "&#93;") ⟨ str "&#93", ';', rfl, by decide⟩
    _ _ le_rfl ⟨t3, c3, h3, hc3⟩
  exact r4

/-- C9: in the final assembly the processed lines are joined with single
newlines and the whole text trimmed, the non-breaking space and the four
escaped-punctuation sequences are substituted, and the output is empty
exactly when the trimmed joined text is empty, otherwise it ends in
exactly one trailing newline (the character before the final newline is
never whitespace); the concrete example exercises the join, the trim, the
non-breaking-space substitution and an entity substitution. -/
theorem C9_finalize :
    (∀ lines : List Line,
        (finalize lines).isEmpty = (assembled lines).isEmpty ∧
          (finalize lines = [] ∨
            ∃ s c, finalize lines = s ++ [c, '\n'] ∧ isSpace c = false)) ∧
      finalize [ str "a \\< b", str "c\u00A0d  "] =
        str "a &lt; b" ++ '\n' :: ( str "c d" ++ [ '\n']) := by
  constructor
  · intro lines
    rcases trim_shape (List.intercalate [ '\n'] (lines.map rstrip)) with hA | ⟨t, c, hA, hc⟩
    · have hass : assembled lines = [] := hA
      have hfin : finalize lines = [] := by
        simp [finalize, hass, nbspToSpace, entitySubst, replace2]
      constructor
      · rw [hfin, hass]
      · exact Or.inl hfin
    · have hass : assembled lines = t ++ [c] := hA
      have h1 : nbspToSpace (assembled lines) = nbspToSpace t ++ [c] := by
        rw [hass]
        exact nbspToSpace_shape t c hc
      obtain ⟨t2, c2, h2, hc2⟩ :=
        entitySubst_shape (nbspToSpace (assembled lines)) ⟨nbspToSpace t, c, h1, hc⟩
      have hfin : finalize lines = t2 ++ [c2, '\n'] := by
        simp only [finalize]
        rw [h2, if_neg (by simp), List.append_assoc]
        rfl
      constructor
      · rw [hfin, hass]
        cases t2 <;> cases t <;> rfl
      · exact Or.inr ⟨t2, c2, hfin, hc2⟩
  · decide

end ConvertManuals
